import Mathlib

/-!
# Verification of the two-stage search pipeline (`src/search.py`)

Shallow embedding of the retrieval/ranking core:
* `Retriever` — BM25 lexical retrieval (`Retriever.__init__` / `Retriever.query`).
  The BM25 statistics and scoring live in the external `rank_bm25.BM25Okapi`
  collaborator, which is not part of the repository source; its scoring is
  modelled from the spec (§4.2), with the IDF weighting kept abstract since the
  spec leaves the exact smoothing as implementer's choice.  Float arithmetic is
  modelled exactly over `ℚ` (BM25 arithmetic is field arithmetic once IDF is a
  parameter).
* `Ranker` — embedding re-ranking (`Ranker._embed` / `Ranker.rank`), modelled
  over `ℝ` (the Euclidean norm needs a square root).  `numpy` reductions
  (`mean`, `amax`, `dot`, `argsort`, `sort`) are embedded as the mathematical
  operations they compute; `np.amax` on an empty array raises, so `_embed`
  is fallible and returns `Option`.
-/

abbrev Token := String

namespace Search

/-! ## Lexical retriever (BM25) -/

/-- Term frequency of token `t` in document `d` (the per-document
term-frequency table of the BM25 index). -/
def tf (d : List Token) (t : Token) : ℕ := d.count t

/-- Modelled from the spec: the average document length statistic `avgdl` of
the BM25 index built by `rank_bm25.BM25Okapi.__init__` (library code not under
`src/`): total token count divided by corpus size.  (`ℚ` division by zero gives
`0`, so the empty corpus yields `avgdl = 0`.) -/
def avgdl (corpus : List (List Token)) : ℚ :=
  ((corpus.map List.length).sum : ℚ) / (corpus.length : ℚ)

/-- BM25 constant `k1` (default of the chosen `BM25Okapi` formulation). -/
def k1 : ℚ := 3 / 2

/-- BM25 constant `b` (default of the chosen `BM25Okapi` formulation). -/
def b : ℚ := 3 / 4

/-- Modelled from the spec: the contribution of one query term `t` to the BM25
score of document `d` (`rank_bm25.BM25Okapi.get_scores`, library code not under
`src/`): `IDF(t) * (tf(t,d) * (k1+1)) / (tf(t,d) + k1 * (1 - b + b * |d| / avgdl))`.
The IDF weighting `idf` is an abstract parameter (the spec leaves the exact
smoothing as implementer's choice; a term absent from the corpus is handled by
`idf` returning its weight, `0` in the unsmoothed reading). -/
def termScore (corpus : List (List Token)) (idf : Token → ℚ)
    (d : List Token) (t : Token) : ℚ :=
  idf t * ((tf d t : ℚ) * (k1 + 1)) /
    ((tf d t : ℚ) + k1 * (1 - b + b * (d.length : ℚ) / avgdl corpus))

/-- Modelled from the spec: `rank_bm25.BM25Okapi.get_scores` (library code not
under `src/`): one BM25 score per corpus document, each the sum over all query
tokens of that token's contribution. -/
def getScores (corpus : List (List Token)) (idf : Token → ℚ)
    (q : List Token) : List ℚ :=
  corpus.map (fun d => (q.map (termScore corpus idf d)).sum)

/-- The order of `sorted(range(len(scores)), key=lambda i: -scores[i])`:
Python's `sorted` is stable, and the input `range` is in ascending index order,
so the result is exactly the sort by (score descending, index ascending). -/
def rankRel (scores : List ℚ) (i j : ℕ) : Prop :=
  scores.getD j 0 < scores.getD i 0 ∨ (scores.getD i 0 = scores.getD j 0 ∧ i ≤ j)

instance (scores : List ℚ) : DecidableRel (rankRel scores) := fun i j => by
  unfold rankRel; infer_instance

/-- Model of `sorted(range(len(scores)), key=lambda i: -scores[i])` in
`Retriever.query`, embedded as the sort of the index list by the stable-sort
order `rankRel` (total, transitive and antisymmetric, so the sorted
permutation is unique and any stable sorting algorithm produces it). -/
def bestOrder (scores : List ℚ) : List ℕ :=
  (List.range scores.length).insertionSort (rankRel scores)

/-- The retriever holds the tokenized corpus (`Retriever.__init__` stores
`documents` and builds the BM25 index over it). -/
structure Retriever where
  corpus : List (List Token)

/-- Model of `Retriever.query`: score every document, take the `n` best indices
(descending score, ties by ascending index), and return them with their
scores. -/
def Retriever.query (r : Retriever) (idf : Token → ℚ) (q : List Token)
    (n : ℕ) : List ℕ × List ℚ :=
  let scores := getScores r.corpus idf q
  let best_docs := (bestOrder scores).take n
  (best_docs, best_docs.map (fun i => scores.getD i 0))

/-! ## Semantic ranker (embedding re-ranking)

`Ranker` holds a query-side and a document-side embedding table
(`Ranker.__init__`).  An embedding table maps a token to a vector or is
absent for it; vectors are modelled as `List ℝ`.  The `numpy` reductions are
embedded as the mathematics they compute; operations that raise on the given
shape (`np.amax` of an empty array, `np.array` of a ragged list of rows,
`.dot` with mismatched dimensions) are modelled by returning `none`. -/

/-- The `Embedding Table` collaborator: `vector(token) -> D-dim vector | absent`. -/
abbrev EmbeddingTable : Type := Token → Option (List ℝ)

/-- Model of `Ranker.__init__`: stores the two embedding tables. -/
structure Ranker where
  query_embedding : EmbeddingTable
  document_embedding : EmbeddingTable

/-- Model of `np.mean(word_embeddings, axis=0)` for a list of same-length rows:
component `j` is the average of the rows' components `j`
(`Ranker._create_mean_embedding`). -/
noncomputable def _create_mean_embedding (word_embeddings : List (List ℝ)) :
    List ℝ :=
  (List.range (word_embeddings.headD []).length).map
    (fun j => (word_embeddings.map (fun w => w.getD j 0)).sum /
      (word_embeddings.length : ℝ))

/-- Maximum of a nonempty list of reals (`np.amax` along an axis); the `[]` case
is never reached because `_embed` fails earlier on an empty array. -/
noncomputable def listMax : List ℝ → ℝ
  | [] => 0
  | x :: xs => xs.foldl max x

/-- Model of `np.amax(word_embeddings, axis=0)`: component `j` is the maximum of the
rows' components `j` (`Ranker._create_max_embedding`). -/
noncomputable def _create_max_embedding (word_embeddings : List (List ℝ)) :
    List ℝ :=
  (List.range (word_embeddings.headD []).length).map
    (fun j => listMax (word_embeddings.map (fun w => w.getD j 0)))

/-- Sum of squared components (the squared Euclidean norm
`(embedding ** 2).sum()`). -/
def sumSq (v : List ℝ) : ℝ := (v.map (fun x => x ^ 2)).sum

/-- Model of `Ranker._embed`: resolve each token in the table (absent tokens dropped:
`[embedding[token] for token in tokens if token in embedding]`), pool by
concatenating the element-wise mean and max, and divide by the Euclidean norm
`(embedding ** 2).sum() ** 0.5`.  Fails (`none`) when no token resolves
(`np.amax` raises `ValueError` on a zero-size array) or when the resolved
rows have unequal lengths (`np.array` of a ragged nested list raises). -/
noncomputable def Ranker._embed (tokens : List Token)
    (embedding : EmbeddingTable) : Option (List ℝ) :=
  let word_embeddings := tokens.filterMap embedding
  if word_embeddings = [] then none
  else if ¬ (∀ w ∈ word_embeddings, w.length = (word_embeddings.headD []).length)
  then none
  else
    let mean_embedding := _create_mean_embedding word_embeddings
    let max_embedding := _create_max_embedding word_embeddings
    let e := mean_embedding ++ max_embedding
    some (e.map (fun x => x / Real.sqrt (sumSq e)))

/-- Model of `document_embeddings.dot(query_embedding)` row-wise: the real dot product
of two equal-length vectors. -/
def dot (u v : List ℝ) : ℝ := (List.zipWith (fun x y => x * y) u v).sum

/-- The order underlying `np.argsort(scores)`: ascending by score.  `argsort`
does not specify the relative order of equal elements, so we fix the
ascending-index completion; every property proved below depends only on the
defining property of an argsort (`scores[argsort[k]] = sort(scores)[k]`),
which holds for any tie order. -/
def argRel (scores : List ℝ) (i j : ℕ) : Prop :=
  scores.getD i 0 < scores.getD j 0 ∨
    (scores.getD i 0 = scores.getD j 0 ∧ i ≤ j)

noncomputable instance (scores : List ℝ) : DecidableRel (argRel scores) :=
  fun i j => by unfold argRel; infer_instance

/-- Model of `np.argsort(scores)`: the document positions sorted ascending by score. -/
noncomputable def argsortAsc (scores : List ℝ) : List ℕ :=
  (List.range scores.length).insertionSort (argRel scores)

/-- Model of `np.sort(scores)`: the scores sorted ascending. -/
noncomputable def sortAsc (scores : List ℝ) : List ℝ :=
  scores.insertionSort (fun x y => x ≤ y)

/-- Model of `Ranker.rank`: embed the query and every candidate document, score each
document by the dot product with the query embedding, and return
`np.argsort(scores)[::-1]` with `np.sort(scores)[::-1]`.  Fails (`none`) when
any embedding fails, or when the document embeddings do not all have the
query embedding's dimension (`np.array` / `.dot` raise on mismatched
shapes). -/
noncomputable def Ranker.rank (rk : Ranker) (tokenized_query : List Token)
    (tokenized_documents : List (List Token)) : Option (List ℕ × List ℝ) :=
  (Ranker._embed tokenized_query rk.query_embedding).bind
    (fun query_embedding =>
      (tokenized_documents.mapM
        (fun document => Ranker._embed document rk.document_embedding)).bind
      (fun document_embeddings =>
        if ∀ de ∈ document_embeddings,
            de.length = query_embedding.length then
          let scores :=
            document_embeddings.map (fun de => dot de query_embedding)
          some ((argsortAsc scores).reverse, (sortAsc scores).reverse)
        else none))

/-- A tiny concrete embedding table used to instantiate theorems with
hypotheses: `"a"` maps to the 2-dimensional vector `(1, 1)`. -/
noncomputable def tblA : EmbeddingTable :=
  fun t => if t = "a" then some [1, 1] else none

/-! ### Order properties of the stable-sort relation -/

instance (s : List ℚ) : IsTotal ℕ (rankRel s) :=
  ⟨fun i j => by
    rcases lt_trichotomy (s.getD i 0) (s.getD j 0) with h | h | h
    · exact Or.inr (Or.inl h)
    · rcases Nat.le_total i j with hij | hij
      · exact Or.inl (Or.inr ⟨h, hij⟩)
      · exact Or.inr (Or.inr ⟨h.symm, hij⟩)
    · exact Or.inl (Or.inl h)⟩

instance (s : List ℚ) : IsTrans ℕ (rankRel s) :=
  ⟨fun i j k hij hjk => by
    rcases hij with h1 | ⟨e1, l1⟩ <;> rcases hjk with h2 | ⟨e2, l2⟩
    · exact Or.inl (h2.trans h1)
    · exact Or.inl (by rw [← e2]; exact h1)
    · exact Or.inl (by rw [e1]; exact h2)
    · exact Or.inr ⟨e1.trans e2, l1.trans l2⟩⟩

instance (s : List ℚ) : IsAntisymm ℕ (rankRel s) :=
  ⟨fun i j hij hji => by
    rcases hij with h1 | ⟨e1, l1⟩ <;> rcases hji with h2 | ⟨e2, l2⟩
    · exact absurd (h1.trans h2) (lt_irrefl _)
    · exact absurd h1 (by rw [e2]; exact lt_irrefl _)
    · exact absurd h2 (by rw [e1]; exact lt_irrefl _)
    · exact Nat.le_antisymm l1 l2⟩

/-! ### Helper lemmas about `getScores` and `bestOrder` -/

theorem length_getScores (c : List (List Token)) (idf : Token → ℚ)
    (q : List Token) : (getScores c idf q).length = c.length :=
  List.length_map _ _

theorem bestOrder_perm_range (s : List ℚ) :
    (bestOrder s).Perm (List.range s.length) :=
  List.perm_insertionSort _ _

theorem sorted_bestOrder (s : List ℚ) :
    (bestOrder s).Sorted (rankRel s) :=
  List.sorted_insertionSort _ _

theorem nodup_bestOrder (s : List ℚ) : (bestOrder s).Nodup :=
  (bestOrder_perm_range s).symm.nodup (List.nodup_range _)

theorem length_bestOrder (s : List ℚ) : (bestOrder s).length = s.length := by
  simpa using (bestOrder_perm_range s).length_eq

theorem mem_bestOrder_lt {s : List ℚ} {i : ℕ} (h : i ∈ bestOrder s) :
    i < s.length := by
  have := (bestOrder_perm_range s).mem_iff.mp h
  simpa using this

/-- Dropping the elements where the summand vanishes does not change a sum. -/
theorem sum_filter_of_vanishing {α : Type} (p : α → Prop) [DecidablePred p]
    (f : α → ℚ) (l : List α) (h : ∀ a, ¬ p a → f a = 0) :
    ((l.filter (fun a => p a)).map f).sum = (l.map f).sum := by
  induction l with
  | nil => simp
  | cons a l ih =>
    by_cases hp : p a
    · simp [List.filter_cons, hp, ih]
    · simp [List.filter_cons, hp, ih, h a hp]

instance (s : List ℝ) : IsTotal ℕ (argRel s) :=
  ⟨fun i j => by
    rcases lt_trichotomy (s.getD i 0) (s.getD j 0) with h | h | h
    · exact Or.inl (Or.inl h)
    · rcases Nat.le_total i j with hij | hij
      · exact Or.inl (Or.inr ⟨h, hij⟩)
      · exact Or.inr (Or.inr ⟨h.symm, hij⟩)
    · exact Or.inr (Or.inl h)⟩

instance (s : List ℝ) : IsTrans ℕ (argRel s) :=
  ⟨fun i j k hij hjk => by
    rcases hij with h1 | ⟨e1, l1⟩ <;> rcases hjk with h2 | ⟨e2, l2⟩
    · exact Or.inl (h1.trans h2)
    · exact Or.inl (by rw [e2] at h1; exact h1)
    · exact Or.inl (by rw [e1]; exact h2)
    · exact Or.inr ⟨e1.trans e2, l1.trans l2⟩⟩

instance (s : List ℝ) : IsAntisymm ℕ (argRel s) :=
  ⟨fun i j hij hji => by
    rcases hij with h1 | ⟨e1, l1⟩ <;> rcases hji with h2 | ⟨e2, l2⟩
    · exact absurd (h1.trans h2) (lt_irrefl _)
    · exact absurd h1 (by rw [e2]; exact lt_irrefl _)
    · exact absurd h2 (by rw [e1]; exact lt_irrefl _)
    · exact Nat.le_antisymm l1 l2⟩

/-! ### Helper lemmas about the ranker -/

theorem argsortAsc_perm_range (s : List ℝ) :
    (argsortAsc s).Perm (List.range s.length) :=
  List.perm_insertionSort _ _

theorem sorted_argsortAsc (s : List ℝ) :
    (argsortAsc s).Sorted (argRel s) :=
  List.sorted_insertionSort _ _

theorem sortAsc_perm (s : List ℝ) : (sortAsc s).Perm s :=
  List.perm_insertionSort _ _

theorem sorted_sortAsc (s : List ℝ) :
    (sortAsc s).Sorted (fun x y => x ≤ y) :=
  List.sorted_insertionSort _ _

theorem range_map_getD (l : List ℝ) :
    (List.range l.length).map (fun i => l.getD i 0) = l := by
  apply List.ext_getElem (by simp)
  intro i h1 h2
  simp [List.getD, List.getElem?_eq_getElem h2]

/-- The defining property of an argsort: reading the scores off the argsort
permutation yields the sorted scores. -/
theorem argsort_map_getD (s : List ℝ) :
    (argsortAsc s).map (fun i => s.getD i 0) = sortAsc s := by
  apply List.eq_of_perm_of_sorted (r := fun x y : ℝ => x ≤ y)
  · have h1 : ((argsortAsc s).map (fun i => s.getD i 0)).Perm
        ((List.range s.length).map (fun i => s.getD i 0)) :=
      (argsortAsc_perm_range s).map _
    rw [range_map_getD] at h1
    exact h1.trans (sortAsc_perm s).symm
  · exact List.Pairwise.map _
      (fun {a b} h => h.elim le_of_lt (fun h' => le_of_eq h'.1))
      (sorted_argsortAsc s)
  · exact sorted_sortAsc s

theorem sum_getD_eq_finset_sum (l : List ℝ) :
    l.sum = ∑ i ∈ Finset.range l.length, l.getD i 0 := by
  induction l with
  | nil => simp
  | cons a l ih =>
    rw [List.sum_cons, ih, List.length_cons, Finset.sum_range_succ']
    simp [add_comm]

theorem dot_eq_finset_sum (u v : List ℝ) (h : u.length = v.length) :
    dot u v = ∑ i ∈ Finset.range u.length, u.getD i 0 * v.getD i 0 := by
  rw [dot, sum_getD_eq_finset_sum]
  have hlen : (List.zipWith (fun x y => x * y) u v).length = u.length := by
    simp [List.length_zipWith, h]
  rw [hlen]
  refine Finset.sum_congr rfl (fun i hi => ?_)
  have hi' : i < u.length := Finset.mem_range.mp hi
  have hiz : i < (List.zipWith (fun x y => x * y) u v).length := by rwa [hlen]
  rw [List.getD_eq_getElem _ 0 hiz, List.getElem_zipWith,
    List.getD_eq_getElem u 0 hi', List.getD_eq_getElem v 0 (h ▸ hi')]

theorem sumSq_eq_finset_sum (u : List ℝ) :
    sumSq u = ∑ i ∈ Finset.range u.length, (u.getD i 0) ^ 2 := by
  rw [sumSq, sum_getD_eq_finset_sum]
  have hlen : (u.map (fun x => x ^ 2)).length = u.length := by simp
  rw [hlen]
  refine Finset.sum_congr rfl (fun i hi => ?_)
  have hi' : i < u.length := Finset.mem_range.mp hi
  have him : i < (u.map (fun x => x ^ 2)).length := by rwa [hlen]
  rw [List.getD_eq_getElem _ 0 him, List.getElem_map,
    List.getD_eq_getElem u 0 hi']

/-- Cauchy–Schwarz: the dot product of two unit vectors lies in `[-1, 1]`. -/
theorem abs_dot_le_one (u v : List ℝ) (h : u.length = v.length)
    (hu : sumSq u = 1) (hv : sumSq v = 1) : -1 ≤ dot u v ∧ dot u v ≤ 1 := by
  have cs := Finset.sum_mul_sq_le_sq_mul_sq (Finset.range u.length)
    (fun i => u.getD i 0) (fun i => v.getD i 0)
  rw [← dot_eq_finset_sum u v h, ← sumSq_eq_finset_sum u, h,
    ← sumSq_eq_finset_sum v, hu, hv, one_mul] at cs
  have habs : |dot u v| ≤ 1 := (sq_le_one_iff_abs_le_one (dot u v)).mp cs
  exact abs_le.mp habs

theorem sumSq_nonneg (v : List ℝ) : 0 ≤ sumSq v :=
  List.sum_nonneg (by intro x hx; rcases List.mem_map.mp hx with ⟨y, _, rfl⟩
                      exact sq_nonneg y)

theorem list_sum_map_div {α : Type} (l : List α) (f : α → ℝ) (c : ℝ) :
    (l.map (fun x => f x / c)).sum = (l.map f).sum / c := by
  induction l with
  | nil => simp
  | cons a l ih => simp [ih, add_div]

theorem sumSq_map_div (e : List ℝ) (c : ℝ) :
    sumSq (e.map (fun x => x / c)) = sumSq e / c ^ 2 := by
  simp only [sumSq, List.map_map]
  rw [show ((fun x => x ^ 2) ∘ fun x => x / c) = fun x => x ^ 2 / c ^ 2 by
    funext x; simp [div_pow]]
  exact list_sum_map_div e (fun x => x ^ 2) (c ^ 2)

/-- Dividing a vector by its Euclidean norm produces a unit vector when the
norm is nonzero. -/
theorem unit_sumSq_of_div_norm (e : List ℝ) (h : sumSq e ≠ 0) :
    sumSq (e.map (fun x => x / Real.sqrt (sumSq e))) = 1 := by
  rw [sumSq_map_div, Real.sq_sqrt (sumSq_nonneg e), div_self h]

theorem mapM_option_forall2 {α β : Type} {f : α → Option β} :
    ∀ {l : List α} {l' : List β}, l.mapM f = some l' →
      List.Forall₂ (fun a b => f a = some b) l l' := by
  intro l
  induction l with
  | nil =>
    intro l' h
    simp only [List.mapM_nil, pure, Option.some.injEq] at h
    exact h ▸ List.Forall₂.nil
  | cons a l ih =>
    intro l' h
    simp only [List.mapM_cons, Option.bind_eq_bind, Option.bind_eq_some, pure,
      Option.some.injEq] at h
    rcases h with ⟨b, hb, bs, hbs, rfl⟩
    exact List.Forall₂.cons hb (ih hbs)

theorem forall2_mem_right {α β : Type} {R : α → β → Prop} :
    ∀ {l : List α} {l' : List β}, List.Forall₂ R l l' →
      ∀ b ∈ l', ∃ a ∈ l, R a b := by
  intro l l' h
  induction h with
  | nil => simp
  | cons hab htail ih =>
    intro b hb
    rcases List.mem_cons.mp hb with rfl | hb
    · exact ⟨_, List.mem_cons_self _ _, hab⟩
    · rcases ih b hb with ⟨a, ha, hr⟩
      exact ⟨a, List.mem_cons_of_mem _ ha, hr⟩

theorem headD_mem {α : Type} {ws : List (List α)} (h : ws ≠ []) :
    ws.headD [] ∈ ws := by
  cases ws with
  | nil => exact absurd rfl h
  | cons a t => simp

theorem length_create_mean (ws : List (List ℝ)) :
    (_create_mean_embedding ws).length = (ws.headD []).length := by
  simp [_create_mean_embedding]

theorem length_create_max (ws : List (List ℝ)) :
    (_create_max_embedding ws).length = (ws.headD []).length := by
  simp [_create_max_embedding]

/-- Characterization of a successful `_embed`. -/
theorem embed_eq_some {tokens : List Token} {tbl : EmbeddingTable}
    {v : List ℝ} (h : Ranker._embed tokens tbl = some v) :
    tokens.filterMap tbl ≠ [] ∧
    (∀ w ∈ tokens.filterMap tbl,
      w.length = ((tokens.filterMap tbl).headD []).length) ∧
    v = (_create_mean_embedding (tokens.filterMap tbl) ++
          _create_max_embedding (tokens.filterMap tbl)).map
        (fun x => x / Real.sqrt (sumSq
          (_create_mean_embedding (tokens.filterMap tbl) ++
           _create_max_embedding (tokens.filterMap tbl)))) := by
  simp only [Ranker._embed] at h
  by_cases h1 : tokens.filterMap tbl = []
  · rw [if_pos h1] at h
    exact absurd h (by simp)
  · rw [if_neg h1] at h
    by_cases h2 : ∀ w ∈ tokens.filterMap tbl,
        w.length = ((tokens.filterMap tbl).headD []).length
    · rw [if_neg (not_not_intro h2)] at h
      exact ⟨h1, h2, (Option.some.injEq _ _ ▸ h).symm⟩
    · rw [if_pos h2] at h
      exact absurd h (by simp)

/-- A successful `_embed` with the dimensions spelled out. -/
theorem embed_eq_some_of {tokens : List Token} {tbl : EmbeddingTable}
    (hne : tokens.filterMap tbl ≠ [])
    (hdim : ∀ w ∈ tokens.filterMap tbl,
      w.length = ((tokens.filterMap tbl).headD []).length) :
    Ranker._embed tokens tbl = some
      ((_create_mean_embedding (tokens.filterMap tbl) ++
        _create_max_embedding (tokens.filterMap tbl)).map
        (fun x => x / Real.sqrt (sumSq
          (_create_mean_embedding (tokens.filterMap tbl) ++
           _create_max_embedding (tokens.filterMap tbl))))) := by
  simp only [Ranker._embed]
  rw [if_neg hne, if_neg (not_not_intro hdim)]

/-- The per-document BM25 score: position `i` of `getScores` is the sum, over
the query terms with nonzero term frequency in document `i`, of the BM25
contribution with the constants written out (`k1 = 3/2`, `b = 3/4`). -/
theorem getScores_getD_eq_filter_sum (c : List (List Token)) (idf : Token → ℚ)
    (q : List Token) (i : ℕ) (hi : i < c.length) :
    (getScores c idf q).getD i 0 =
      ((q.filter (fun t => 0 < tf (c.getD i []) t)).map (fun t =>
        idf t * ((tf (c.getD i []) t : ℚ) * (3 / 2 + 1)) /
          ((tf (c.getD i []) t : ℚ) +
            3 / 2 * (1 - 3 / 4 + 3 / 4 * ((c.getD i []).length : ℚ) /
              avgdl c)))).sum := by
  have hi' : i < (getScores c idf q).length := by rwa [length_getScores]
  rw [List.getD_eq_getElem _ _ hi']
  simp only [getScores, List.getElem_map]
  rw [← List.getD_eq_getElem c [] hi]
  have h2 : q.map (termScore c idf (c.getD i [])) =
      q.map (fun t =>
        idf t * ((tf (c.getD i []) t : ℚ) * (3 / 2 + 1)) /
          ((tf (c.getD i []) t : ℚ) +
            3 / 2 * (1 - 3 / 4 + 3 / 4 * ((c.getD i []).length : ℚ) /
              avgdl c))) := by
    refine List.map_congr_left (fun t _ => ?_)
    simp [termScore, k1, b]
  rw [h2]
  exact (sum_filter_of_vanishing (fun t => 0 < tf (c.getD i []) t) _ q (by
    intro t ht
    have h0 : tf (c.getD i []) t = 0 := Nat.eq_zero_of_not_pos ht
    rw [h0]
    simp)).symm

/-- The number of indices `Retriever.query` returns. -/
theorem retriever_query_fst_length (r : Retriever) (idf : Token → ℚ)
    (q : List Token) (n : ℕ) :
    (r.query idf q n).1.length = min n r.corpus.length := by
  show ((bestOrder (getScores r.corpus idf q)).take n).length = _
  rw [List.length_take, length_bestOrder, length_getScores]

/-- Destructuring a successful `Ranker.rank` call. -/
theorem rank_eq_some {rk : Ranker} {q : List Token}
    {docs : List (List Token)} {out : List ℕ × List ℝ}
    (h : rk.rank q docs = some out) :
    ∃ qe des, Ranker._embed q rk.query_embedding = some qe ∧
      docs.mapM (fun d => Ranker._embed d rk.document_embedding) = some des ∧
      (∀ de ∈ des, de.length = qe.length) ∧
      out = ((argsortAsc (des.map (fun de => dot de qe))).reverse,
             (sortAsc (des.map (fun de => dot de qe))).reverse) := by
  unfold Ranker.rank at h
  cases hq : Ranker._embed q rk.query_embedding with
  | none => rw [hq, Option.none_bind] at h; exact absurd h (by simp)
  | some qe =>
    rw [hq, Option.some_bind] at h
    cases hd : docs.mapM (fun d => Ranker._embed d rk.document_embedding) with
    | none => rw [hd, Option.none_bind] at h; exact absurd h (by simp)
    | some des =>
      rw [hd, Option.some_bind] at h
      by_cases hlen : ∀ de ∈ des, de.length = qe.length
      · rw [if_pos hlen] at h
        exact ⟨qe, des, rfl, rfl, hlen, (Option.some_inj.mp h).symm⟩
      · rw [if_neg hlen] at h
        exact absurd h (by simp)

/-- Concrete resolution of the witness table on the token `"a"`. -/
theorem filterMap_tblA : (["a"] : List Token).filterMap tblA = [[1, 1]] := by
  simp [tblA]

/-- Evaluation of `_embed` on the witness table. -/
theorem embed_tblA_eval :
    Ranker._embed ["a"] tblA = some [1 / 2, 1 / 2, 1 / 2, 1 / 2] := by
  have hne : (["a"] : List Token).filterMap tblA ≠ [] := by
    rw [filterMap_tblA]; simp
  have hdim : ∀ w ∈ (["a"] : List Token).filterMap tblA,
      w.length = (((["a"] : List Token).filterMap tblA).headD []).length := by
    rw [filterMap_tblA]
    intro w hw
    simp at hw
    simp [hw]
  rw [embed_eq_some_of hne hdim, filterMap_tblA]
  have hmean : _create_mean_embedding [[(1 : ℝ), 1]] = [1, 1] := by
    norm_num [_create_mean_embedding, List.range_succ]
  have hmax : _create_max_embedding [[(1 : ℝ), 1]] = [1, 1] := by
    norm_num [_create_max_embedding, listMax, List.range_succ]
  rw [hmean, hmax]
  have happ : ([(1 : ℝ), 1] ++ [1, 1]) = [1, 1, 1, 1] := rfl
  rw [happ]
  have hsq : sumSq [(1 : ℝ), 1, 1, 1] = 4 := by norm_num [sumSq]
  rw [hsq, show (4 : ℝ) = 2 ^ 2 by norm_num,
    Real.sqrt_sq (by norm_num : (0 : ℝ) ≤ 2)]
  norm_num

/-- Evaluation of `Ranker.rank` on the witness table: one candidate document equal
to the query, cosine score `1`. -/
theorem rank_tblA_eval :
    (Ranker.mk tblA tblA).rank ["a"] [["a"]] = some ([0], [1]) := by
  have hdot : dot [(1 : ℝ) / 2, 1 / 2, 1 / 2, 1 / 2]
      [(1 : ℝ) / 2, 1 / 2, 1 / 2, 1 / 2] = 1 := by
    norm_num [dot]
  unfold Ranker.rank
  rw [show (Ranker.mk tblA tblA).query_embedding = tblA from rfl,
    show (Ranker.mk tblA tblA).document_embedding = tblA from rfl]
  rw [show ([["a"]] : List (List Token)).mapM (fun d => Ranker._embed d tblA) =
      some [[1 / 2, 1 / 2, 1 / 2, 1 / 2]] by
    rw [← List.mapM'_eq_mapM]
    simp [List.mapM', embed_tblA_eval]]
  rw [embed_tblA_eval, Option.some_bind, Option.some_bind]
  rw [if_pos (by simp)]
  simp only [List.map_cons, List.map_nil, hdot]
  have harg : argsortAsc [(1 : ℝ)] = [0] := by
    simp [argsortAsc, List.insertionSort, List.range_succ]
  have hsort : sortAsc [(1 : ℝ)] = [1] := by
    simp [sortAsc, List.insertionSort]
  rw [harg, hsort]
  simp

/-! ## Claim theorems -/

/-- Claim C1: For every corpus and tokenized query, the BM25 score that
`Retriever.query` returns for a returned document `d` equals the sum, over the
query terms `t` present in `d`'s term-frequency table, of
`IDF(t) * (tf(t,d) * (k1+1)) / (tf(t,d) + k1 * (1 - b + b * |d| / avgdl))`
with `k1 = 3/2` and `b = 3/4` written out. -/
theorem retriever_query_bm25_formula (r : Retriever) (idf : Token → ℚ)
    (q : List Token) (n k : ℕ) (hk : k < (r.query idf q n).1.length) :
    ∃ d : List Token,
      r.corpus.getD ((r.query idf q n).1.getD k 0) [] = d ∧
      (r.query idf q n).2.getD k 0 =
        ((q.filter (fun t => 0 < tf d t)).map (fun t =>
          idf t * ((tf d t : ℚ) * (3 / 2 + 1)) /
            ((tf d t : ℚ) +
              3 / 2 * (1 - 3 / 4 + 3 / 4 * ((d.length : ℚ)) /
                avgdl r.corpus)))).sum := by
  refine ⟨r.corpus.getD ((r.query idf q n).1.getD k 0) [], rfl, ?_⟩
  have h1 : (r.query idf q n).1 =
      (bestOrder (getScores r.corpus idf q)).take n := rfl
  have h2 : (r.query idf q n).2 =
      ((bestOrder (getScores r.corpus idf q)).take n).map
        (fun j => (getScores r.corpus idf q).getD j 0) := rfl
  have hk1 : k < ((bestOrder (getScores r.corpus idf q)).take n).length := by
    rwa [h1] at hk
  have hk2 : k < (((bestOrder (getScores r.corpus idf q)).take n).map
      (fun j => (getScores r.corpus idf q).getD j 0)).length := by
    simpa using hk1
  have hidx : (r.query idf q n).1.getD k 0 =
      ((bestOrder (getScores r.corpus idf q)).take n).getD k 0 := by rw [h1]
  have hmem : ((bestOrder (getScores r.corpus idf q)).take n).getD k 0 ∈
      bestOrder (getScores r.corpus idf q) := by
    rw [List.getD_eq_getElem _ _ hk1]
    exact List.mem_of_mem_take (List.getElem_mem hk1)
  have hlt : ((bestOrder (getScores r.corpus idf q)).take n).getD k 0 <
      r.corpus.length := by
    have := mem_bestOrder_lt hmem
    rwa [length_getScores] at this
  have hval : (r.query idf q n).2.getD k 0 =
      (getScores r.corpus idf q).getD
        (((bestOrder (getScores r.corpus idf q)).take n).getD k 0) 0 := by
    rw [h2, List.getD_eq_getElem _ _ hk2, List.getElem_map,
      List.getD_eq_getElem _ _ hk1]
  rw [hidx, hval]
  exact getScores_getD_eq_filter_sum r.corpus idf q _ hlt

/-- Witness for C1 at a one-document corpus. -/
theorem retriever_query_bm25_formula_witness :
    ∃ d : List Token,
      (Retriever.mk [["a"]]).corpus.getD
        (((Retriever.mk [["a"]]).query (fun _ => 1) ["a"] 1).1.getD 0 0) [] = d ∧
      ((Retriever.mk [["a"]]).query (fun _ => 1) ["a"] 1).2.getD 0 0 =
        ((["a"].filter (fun t => 0 < tf d t)).map (fun t =>
          (fun _ => (1 : ℚ)) t * ((tf d t : ℚ) * (3 / 2 + 1)) /
            ((tf d t : ℚ) +
              3 / 2 * (1 - 3 / 4 + 3 / 4 * ((d.length : ℚ)) /
                avgdl (Retriever.mk [["a"]]).corpus)))).sum :=
  retriever_query_bm25_formula (Retriever.mk [["a"]]) (fun _ => 1) ["a"] 1 0
    (by rw [retriever_query_fst_length]; decide)

/-- Claim C2: `Retriever.query` returns at most `n` (index, score) pairs; the
score list is exactly the BM25 score of each returned index; and the indices
are ordered by strictly descending score, two equal scores appearing in
ascending original-index order. -/
theorem retriever_query_top_n_sorted (r : Retriever) (idf : Token → ℚ)
    (q : List Token) (n : ℕ) :
    (r.query idf q n).1.length ≤ n ∧ (r.query idf q n).2.length ≤ n ∧
    (r.query idf q n).2 =
      (r.query idf q n).1.map
        (fun i => (getScores r.corpus idf q).getD i 0) ∧
    (r.query idf q n).1.Pairwise (fun i j =>
      (getScores r.corpus idf q).getD j 0 <
          (getScores r.corpus idf q).getD i 0 ∨
        ((getScores r.corpus idf q).getD i 0 =
            (getScores r.corpus idf q).getD j 0 ∧ i < j)) := by
  have h1 : (r.query idf q n).1 =
      (bestOrder (getScores r.corpus idf q)).take n := rfl
  have h2 : (r.query idf q n).2 =
      ((bestOrder (getScores r.corpus idf q)).take n).map
        (fun j => (getScores r.corpus idf q).getD j 0) := rfl
  refine ⟨?_, ?_, by rw [h1, h2], ?_⟩
  · rw [h1]; exact List.length_take_le n _
  · rw [h2]
    simp only [List.length_map]
    exact List.length_take_le n (bestOrder (getScores r.corpus idf q))
  · rw [h1]
    have hcomb : (bestOrder (getScores r.corpus idf q)).Pairwise
        (fun i j => rankRel (getScores r.corpus idf q) i j ∧ i ≠ j) :=
      (sorted_bestOrder (getScores r.corpus idf q)).and
        (nodup_bestOrder (getScores r.corpus idf q))
    have htake := hcomb.sublist (List.take_sublist n _)
    refine htake.imp ?_
    rintro i j ⟨hr, hne⟩
    rcases hr with h | ⟨he, hle⟩
    · exact Or.inl h
    · exact Or.inr ⟨he, lt_of_le_of_ne hle hne⟩

/-- Claim C6: For an empty corpus, building the retriever and querying it is
well defined and returns the empty result, for every query and every `n`. -/
theorem retriever_query_empty_corpus (idf : Token → ℚ) (q : List Token)
    (n : ℕ) : (Retriever.mk []).query idf q n = ([], []) := by
  simp [Retriever.query, getScores, bestOrder]

/-- Claim C7: On a non-empty corpus, an empty tokenized query gives every
document the score `0`, and the result is the first `n` indices in original
ascending order with all scores `0`. -/
theorem retriever_query_empty_query (r : Retriever) (idf : Token → ℚ)
    (n : ℕ) (_hne : r.corpus ≠ []) :
    r.query idf [] n = ((List.range r.corpus.length).take n,
      List.replicate (min n r.corpus.length) (0 : ℚ)) := by
  have hzero : ∀ i, (getScores r.corpus idf []).getD i 0 = 0 := by
    intro i
    rcases lt_or_ge i (getScores r.corpus idf []).length with h | h
    · rw [List.getD_eq_getElem _ _ h]
      simp [getScores]
    · rw [List.getD_eq_default _ _ h]
  have hsorted : (List.range r.corpus.length).Sorted
      (rankRel (getScores r.corpus idf [])) := by
    refine List.Pairwise.imp ?_ (List.pairwise_lt_range _)
    intro i j hij
    exact Or.inr ⟨by rw [hzero i, hzero j], le_of_lt hij⟩
  have hbo : bestOrder (getScores r.corpus idf []) =
      List.range r.corpus.length := by
    unfold bestOrder
    rw [length_getScores]
    exact List.Sorted.insertionSort_eq hsorted
  have h1 : r.query idf [] n =
      ((bestOrder (getScores r.corpus idf [])).take n,
        ((bestOrder (getScores r.corpus idf [])).take n).map
          (fun j => (getScores r.corpus idf []).getD j 0)) := rfl
  rw [h1, hbo]
  refine Prod.ext rfl ?_
  show ((List.range r.corpus.length).take n).map
      (fun j => (getScores r.corpus idf []).getD j 0) = _
  have hmem : ∀ x ∈ ((List.range r.corpus.length).take n).map
      (fun j => (getScores r.corpus idf []).getD j 0), x = 0 := by
    intro x hx
    rcases List.mem_map.mp hx with ⟨j, _, rfl⟩
    exact hzero j
  rw [List.eq_replicate_of_mem hmem]
  congr 1
  simp [min_comm]

/-- Witness for C7 on a two-document corpus. -/
theorem retriever_query_empty_query_witness :
    (Retriever.mk [["a"], ["b"]]).query (fun _ => 0) [] 1 =
      ((List.range (Retriever.mk [["a"], ["b"]]).corpus.length).take 1,
        List.replicate (min 1 (Retriever.mk [["a"], ["b"]]).corpus.length)
          (0 : ℚ)) :=
  retriever_query_empty_query (Retriever.mk [["a"], ["b"]]) (fun _ => 0) 1
    (by simp)

/-- Claim C8: When `n` is at least the corpus size, `Retriever.query` returns
exactly one (index, score) pair per document, and the returned indices cover
every document index exactly once. -/
theorem retriever_query_all_when_n_ge (r : Retriever) (idf : Token → ℚ)
    (q : List Token) (n : ℕ) (h : r.corpus.length ≤ n) :
    (r.query idf q n).1.length = r.corpus.length ∧
    (r.query idf q n).2.length = r.corpus.length ∧
    (r.query idf q n).1.Perm (List.range r.corpus.length) := by
  have hlenb : (bestOrder (getScores r.corpus idf q)).length =
      r.corpus.length := by
    rw [length_bestOrder, length_getScores]
  have htake : (bestOrder (getScores r.corpus idf q)).take n =
      bestOrder (getScores r.corpus idf q) :=
    List.take_of_length_le (by rw [hlenb]; exact h)
  have h1 : (r.query idf q n).1 = bestOrder (getScores r.corpus idf q) := by
    show (bestOrder (getScores r.corpus idf q)).take n = _
    exact htake
  have h2 : (r.query idf q n).2 =
      (bestOrder (getScores r.corpus idf q)).map
        (fun j => (getScores r.corpus idf q).getD j 0) := by
    show ((bestOrder (getScores r.corpus idf q)).take n).map _ = _
    rw [htake]
  refine ⟨by rw [h1, hlenb], by rw [h2]; simpa using hlenb, ?_⟩
  rw [h1]
  have hperm := bestOrder_perm_range (getScores r.corpus idf q)
  rwa [length_getScores] at hperm

/-- Witness for C8 with `n` equal to the corpus size. -/
theorem retriever_query_all_when_n_ge_witness :
    ((Retriever.mk [["a"]]).query (fun _ => 0) ["a"] 1).1.length =
        (Retriever.mk [["a"]]).corpus.length ∧
      ((Retriever.mk [["a"]]).query (fun _ => 0) ["a"] 1).2.length =
        (Retriever.mk [["a"]]).corpus.length ∧
      ((Retriever.mk [["a"]]).query (fun _ => 0) ["a"] 1).1.Perm
        (List.range (Retriever.mk [["a"]]).corpus.length) :=
  retriever_query_all_when_n_ge (Retriever.mk [["a"]]) (fun _ => 0) ["a"] 1
    (by decide)

/-- Claim C3: When `Ranker.rank` returns, its index sequence is a permutation
of the candidate index set (every candidate exactly once) and its score
sequence is sorted in descending order. -/
theorem rank_permutation_sorted (rk : Ranker) (q : List Token)
    (docs : List (List Token)) (out : List ℕ × List ℝ)
    (hout : rk.rank q docs = some out) :
    out.1.Perm (List.range docs.length) ∧ out.2.length = docs.length ∧
    out.2.Sorted (fun x y : ℝ => x ≥ y) := by
  rcases rank_eq_some hout with ⟨qe, des, hq, hd, hlen, rfl⟩
  have hdlen : des.length = docs.length :=
    (mapM_option_forall2 hd).length_eq.symm
  have hslen : (des.map (fun de => dot de qe)).length = docs.length := by
    simpa using hdlen
  refine ⟨?_, ?_, ?_⟩
  · have hp := argsortAsc_perm_range (des.map (fun de => dot de qe))
    rw [hslen] at hp
    exact (List.reverse_perm _).trans hp
  · have := (sortAsc_perm (des.map (fun de => dot de qe))).length_eq
    simpa [this] using hslen
  · exact List.pairwise_reverse.mpr
      (sorted_sortAsc (des.map (fun de => dot de qe)))

/-- Witness for C3 at a one-candidate ranking. -/
theorem rank_permutation_sorted_witness :
    (([0], [1]) : List ℕ × List ℝ).1.Perm
        (List.range ([[("a" : Token)]] : List (List Token)).length) ∧
      (([0], [1]) : List ℕ × List ℝ).2.length =
        ([[("a" : Token)]] : List (List Token)).length ∧
      (([0], [1]) : List ℕ × List ℝ).2.Sorted (fun x y : ℝ => x ≥ y) :=
  rank_permutation_sorted (Ranker.mk tblA tblA) ["a"] [["a"]] ([0], [1])
    rank_tblA_eval

/-- Claim C4: When at least one token resolves to a `D`-dimensional vector,
`_embed` returns the concatenation of the element-wise mean and element-wise
max of the resolved vectors — a vector of dimension `2 * D` — divided by its
Euclidean norm, and the result has unit L2 norm whenever that norm is
nonzero. -/
theorem embed_pooling_spec (table : EmbeddingTable) (tokens : List Token)
    (D : ℕ) (hne : tokens.filterMap table ≠ [])
    (hdim : ∀ w ∈ tokens.filterMap table, w.length = D) :
    ∃ v, Ranker._embed tokens table = some v ∧
      v = (_create_mean_embedding (tokens.filterMap table) ++
            _create_max_embedding (tokens.filterMap table)).map
          (fun x => x / Real.sqrt (sumSq
            (_create_mean_embedding (tokens.filterMap table) ++
             _create_max_embedding (tokens.filterMap table)))) ∧
      v.length = 2 * D ∧
      (sumSq (_create_mean_embedding (tokens.filterMap table) ++
              _create_max_embedding (tokens.filterMap table)) ≠ 0 →
        sumSq v = 1) := by
  have hhead : ((tokens.filterMap table).headD []).length = D :=
    hdim _ (headD_mem hne)
  have hdim' : ∀ w ∈ tokens.filterMap table,
      w.length = ((tokens.filterMap table).headD []).length := by
    intro w hw
    rw [hhead]
    exact hdim w hw
  refine ⟨_, embed_eq_some_of hne hdim', rfl, ?_, ?_⟩
  · rw [List.length_map, List.length_append, length_create_mean,
      length_create_max, hhead]
    omega
  · intro hnz
    exact unit_sumSq_of_div_norm _ hnz

/-- Witness for C4 on the concrete table (`"a" ↦ (1, 1)`, so `D = 2`). -/
theorem embed_pooling_spec_witness :
    ∃ v, Ranker._embed ["a"] tblA = some v ∧
      v = (_create_mean_embedding ((["a"] : List Token).filterMap tblA) ++
            _create_max_embedding ((["a"] : List Token).filterMap tblA)).map
          (fun x => x / Real.sqrt (sumSq
            (_create_mean_embedding ((["a"] : List Token).filterMap tblA) ++
             _create_max_embedding ((["a"] : List Token).filterMap tblA)))) ∧
      v.length = 2 * 2 ∧
      (sumSq (_create_mean_embedding ((["a"] : List Token).filterMap tblA) ++
              _create_max_embedding ((["a"] : List Token).filterMap tblA)) ≠ 0 →
        sumSq v = 1) :=
  embed_pooling_spec tblA ["a"] 2
    (by rw [filterMap_tblA]; simp)
    (by rw [filterMap_tblA]; intro w hw; simp at hw; simp [hw])

/-- Claim C5 (evaluation of the failing path): when no token of the input
resolves to an embedding vector, `_embed` fails — the `numpy` reduction over
the empty resolved set raises — instead of producing a documented fallback
vector. -/
theorem embed_no_resolved_tokens_fails :
    Ranker._embed ["oov"] (fun _ => none) = none := by
  simp [Ranker._embed]

/-- Claim C9: If the query's and every candidate's pooled embedding is
unit-normalized (the non-degenerate case), every score `Ranker.rank` returns
lies in `[-1, 1]`. -/
theorem rank_scores_in_unit_interval (rk : Ranker) (q : List Token)
    (docs : List (List Token)) (out : List ℕ × List ℝ) (s : ℝ)
    (hout : rk.rank q docs = some out)
    (hq1 : ∀ v, Ranker._embed q rk.query_embedding = some v → sumSq v = 1)
    (hd1 : ∀ d ∈ docs, ∀ v,
      Ranker._embed d rk.document_embedding = some v → sumSq v = 1)
    (hs : s ∈ out.2) : -1 ≤ s ∧ s ≤ 1 := by
  rcases rank_eq_some hout with ⟨qe, des, hq, hd, hlen, rfl⟩
  have hs1 : s ∈ sortAsc (des.map (fun de => dot de qe)) := by
    simpa using hs
  have hs2 : s ∈ des.map (fun de => dot de qe) :=
    (sortAsc_perm _).subset hs1
  rcases List.mem_map.mp hs2 with ⟨de, hde, rfl⟩
  rcases forall2_mem_right (mapM_option_forall2 hd) de hde with
    ⟨d, hdmem, hembed⟩
  exact abs_dot_le_one de qe (hlen de hde) (hd1 d hdmem de hembed) (hq1 qe hq)

/-- Witness for C9: the unique score of the one-candidate ranking is in
`[-1, 1]`. -/
theorem rank_scores_in_unit_interval_witness : -1 ≤ (1 : ℝ) ∧ (1 : ℝ) ≤ 1 :=
  rank_scores_in_unit_interval (Ranker.mk tblA tblA) ["a"] [["a"]]
    ([0], [1]) 1 rank_tblA_eval
    (by
      intro v hv
      rw [embed_tblA_eval, Option.some_inj] at hv
      rw [← hv]
      norm_num [sumSq])
    (by
      intro d hd v hv
      simp only [List.mem_singleton] at hd
      subst hd
      rw [show (Ranker.mk tblA tblA).document_embedding = tblA from rfl,
        embed_tblA_eval, Option.some_inj] at hv
      rw [← hv]
      norm_num [sumSq])
    (by simp)

/-- Claim C10: The two sequences `Ranker.rank` returns are pairwise
consistent: the score list equals the dot-product scores read off at the
returned indices, even though they are produced by separate `argsort` and
`sort` calls. -/
theorem rank_scores_align (rk : Ranker) (q : List Token)
    (docs : List (List Token)) (out : List ℕ × List ℝ)
    (hout : rk.rank q docs = some out) :
    ∃ qe des, Ranker._embed q rk.query_embedding = some qe ∧
      docs.mapM (fun d => Ranker._embed d rk.document_embedding) = some des ∧
      out.2 = out.1.map
        (fun i => (des.map (fun de => dot de qe)).getD i 0) := by
  rcases rank_eq_some hout with ⟨qe, des, hq, hd, hlen, rfl⟩
  refine ⟨qe, des, hq, hd, ?_⟩
  show (sortAsc (des.map (fun de => dot de qe))).reverse =
    ((argsortAsc (des.map (fun de => dot de qe))).reverse).map
      (fun i => (des.map (fun de => dot de qe)).getD i 0)
  rw [List.map_reverse, argsort_map_getD]

/-- Witness for C10 at the one-candidate ranking. -/
theorem rank_scores_align_witness :
    ∃ qe des, Ranker._embed ["a"] (Ranker.mk tblA tblA).query_embedding =
        some qe ∧
      ([[("a" : Token)]] : List (List Token)).mapM
        (fun d => Ranker._embed d (Ranker.mk tblA tblA).document_embedding) =
        some des ∧
      (([0], [1]) : List ℕ × List ℝ).2 =
        (([0], [1]) : List ℕ × List ℝ).1.map
          (fun i => (des.map (fun de => dot de qe)).getD i 0) :=
  rank_scores_align (Ranker.mk tblA tblA) ["a"] [["a"]] ([0], [1])
    rank_tblA_eval

end Search
